import Mathlib

/-!
Verification of go-teamcity-report: a one-pass transformer from `go test -v`
output lines to TeamCity service messages.  The definitions below are a
shallow embedding of the Go source (`go-teamcity-report.go`): the line
classifier mirrors the four anchored regular expressions, the dispatcher
mirrors the main loop, and the emitters mirror `flush` / `flushPackage` /
`escape`.  Output is modelled as the list of strings passed to the print
calls (each call emits its string followed by a newline).
-/

set_option maxRecDepth 20000

namespace GoTC

/-- Whitespace class of Go regexp `\s`, i.e. `[\t\n\f\r ]`. -/
def goWS (c : Char) : Bool :=
  c = ' ' || c = Char.ofNat 9 || c = Char.ofNat 10 || c = Char.ofNat 12 || c = Char.ofNat 13

def notWS (c : Char) : Bool := !(goWS c)

def isDigitCh (c : Char) : Bool := '0' ≤ c && c ≤ '9'

/-- Character class of `[\d.]` in the duration group of `testFinishPattern`. -/
def isDurChar (c : Char) : Bool := isDigitCh c || c = '.'

/-- Strip a literal prefix, returning the remainder on success. -/
def dropPref : List Char → List Char → Option (List Char)
  | [], l => some l
  | _ :: _, [] => none
  | p :: ps, c :: cs => if c = p then dropPref ps cs else none

/-- Events produced by the line classifier (the four regexes of the source,
tried in the order of the `if/else` chain in `main`). -/
inductive LineEv where
  | cruftE : LineEv
  | runE (nm : List Char) : LineEv
  | finE (status : String) (nm dur : List Char) : LineEv
  | pkgE (nm : List Char) : LineEv
  | plainE : LineEv
deriving DecidableEq

/-- The `(PASS|FAIL|SKIP):` alternation of `testFinishPattern` (the three
alternatives start with distinct characters, so the order is immaterial). -/
def matchStatus (l : List Char) : Option (String × List Char) :=
  match dropPref ("PASS:".data) l with
  | some r => some ("PASS", r)
  | none =>
    match dropPref ("FAIL:".data) l with
    | some r => some ("FAIL", r)
    | none =>
      match dropPref ("SKIP:".data) l with
      | some r => some ("SKIP", r)
      | none => none

/-- Match of `testRunPattern`, regex `^=== RUN\s+(\S+)`. -/
def parseRun (l : List Char) : Option (List Char) :=
  match dropPref ("=== RUN".data) l with
  | none => none
  | some rest =>
    let w := rest.takeWhile goWS
    if w.isEmpty then none
    else
      let nm := (rest.drop w.length).takeWhile notWS
      if nm.isEmpty then none else some nm

/-- Match of `testFinishPattern`, regex
`^--- (PASS|FAIL|SKIP):\s+(\S+) \(([\d.]+)s\)`; yields (status, name, duration
literal).  Backtracking cannot produce other matches: `\s+`/`\S+` are runs of
disjoint character classes and `[\d.]` excludes `s`, so each greedy run is
forced. -/
def parseFin (l : List Char) : Option (String × List Char × List Char) :=
  match dropPref ("--- ".data) l with
  | none => none
  | some r1 =>
    match matchStatus r1 with
    | none => none
    | some (st, r2) =>
      let w := r2.takeWhile goWS
      if w.isEmpty then none
      else
        let r3 := r2.drop w.length
        let nm := r3.takeWhile notWS
        if nm.isEmpty then none
        else
          match dropPref [' ', '('] (r3.drop nm.length) with
          | none => none
          | some r4 =>
            let dur := r4.takeWhile isDurChar
            if dur.isEmpty then none
            else
              match dropPref ['s', ')'] (r4.drop dur.length) with
              | none => none
              | some _ => some (st, nm, dur)

/-- The `(ok|FAIL|\?)` alternation of `packageFinishPattern` (distinct first
characters, so at most one alternative can match). -/
def pkgTail (l : List Char) : Option (List Char) :=
  match dropPref ("ok".data) l with
  | some r => some r
  | none =>
    match dropPref ("FAIL".data) l with
    | some r => some r
    | none => dropPref ("?".data) l

/-- Match of `packageFinishPattern`, regex `^(ok|FAIL|\?)\s+(\S+)`. -/
def parsePkg (l : List Char) : Option (List Char) :=
  match pkgTail l with
  | none => none
  | some rest =>
    let w := rest.takeWhile goWS
    if w.isEmpty then none
    else
      let nm := (rest.drop w.length).takeWhile notWS
      if nm.isEmpty then none else some nm

/-- Line classification in the order of the `if/else` chain of `main`:
`cruftPattern` (`^(PASS|FAIL)$`, an exact-line match), then `testRunPattern`,
`testFinishPattern`, `packageFinishPattern`, and finally unclassified. -/
def classify (l : List Char) : LineEv :=
  if l = "PASS".data ∨ l = "FAIL".data then .cruftE
  else
    match parseRun l with
    | some nm => .runE nm
    | none =>
      match parseFin l with
      | some (st, nm, dur) => .finE st nm dur
      | none =>
        match parsePkg l with
        | some p => .pkgE p
        | none => .plainE

/-- Value of an IEEE-754 binary32 number as stored in the `durationSec`
field (a Go `float64` that only ever holds float32-valued results of
`strconv.ParseFloat(s, 32)`, or 0): either a finite rational or infinity. -/
inductive F32 where
  | fin (q : ℚ) : F32
  | inf : F32
deriving DecidableEq

def npow2 (k : ℕ) : ℕ := Nat.pow 2 k

def npow10 (k : ℕ) : ℕ := Nat.pow 10 k

def imax (a b : ℤ) : ℤ := if a ≤ b then b else a

/-- Numerator and denominator of `q * 2^s` (denominator stays positive). -/
def qscale (q : ℚ) (s : ℤ) : ℤ × ℤ :=
  match s with
  | .ofNat k => (q.num * (npow2 k : ℤ), (q.den : ℤ))
  | .negSucc k => (q.num, (q.den : ℤ) * (npow2 (k + 1) : ℤ))

/-- Round `n / d` (with `d > 0`) to the nearest integer, ties to even (the
IEEE default rounding of `strconv.ParseFloat`). -/
def rndND (n d : ℤ) : ℤ :=
  let fl := Int.fdiv n d
  let r := n - fl * d
  if 2 * r < d then fl
  else if d < 2 * r then fl + 1
  else if fl % 2 = 0 then fl else fl + 1

/-- The rational `m * 2^e`. -/
def dyQ (m : ℤ) (e : ℤ) : ℚ :=
  match e with
  | .ofNat k => mkRat (m * (npow2 k : ℤ)) 1
  | .negSucc k => mkRat m (npow2 (k + 1))

def qDouble (q : ℚ) : ℚ := mkRat (q.num * 2) q.den

def qHalf (q : ℚ) : ℚ := mkRat q.num (q.den * 2)

/-- Binary exponent search: returns `e` with `2^e ≤ q < 2^(e+1)` for positive
`q` within the fuel bound (fuel 600 covers the whole float32 pipeline). -/
def expSearch : ℕ → ℚ → ℤ → ℤ
  | 0, _, e => e
  | fuel + 1, q, e =>
    if q < 1 then expSearch fuel (qDouble q) (e - 1)
    else if 2 ≤ q then expSearch fuel (qHalf q) (e + 1)
    else e

def normExp (q : ℚ) : ℤ := expSearch 600 q 0

/-- Nonnegative rational at least `2^128`, the binary32 overflow bound. -/
def overflow32 (v : ℚ) : Bool := (npow2 128 : ℤ) * (v.den : ℤ) ≤ v.num

/-- IEEE-754 binary32 round-to-nearest-even of a nonnegative rational, as
performed by `strconv.ParseFloat(s, 32)`: exponent clamped at -126 for
subnormals, overflow to infinity at `2^128`. -/
def roundF32 (q : ℚ) : F32 :=
  if q ≤ 0 then .fin 0
  else
    let e := imax (normExp q) (-126)
    let sc := qscale q (23 - e)
    let m := rndND sc.1 sc.2
    let v := dyQ m (e - 23)
    if overflow32 v then .inf else .fin v

def digitVal (c : Char) : ℕ := c.toNat - 48

def digitsVal (l : List Char) : ℕ := l.foldl (fun a c => 10 * a + digitVal c) 0

/-- Decimal syntax accepted by `strconv.ParseFloat` restricted to strings
drawn from `[\d.]+`: at least one digit and at most one dot (forms like
`1`, `1.`, `.5`, `0.01`); `none` on syntax error (e.g. `.` or `1.2.3`). -/
def parseDec (l : List Char) : Option ℚ :=
  let ip := l.takeWhile isDigitCh
  let r := l.drop ip.length
  match r with
  | [] => if ip.isEmpty then none else some (digitsVal ip : ℚ)
  | c :: fp =>
    if c = '.' && fp.all isDigitCh && !(ip.isEmpty && fp.isEmpty) then
      some (mkRat ((digitsVal (ip ++ fp) : ℕ) : ℤ) (npow10 fp.length))
    else none

/-- Model of `test.durationSec, _ = strconv.ParseFloat(match[3], 32)`:
syntax errors are swallowed and leave 0 (ParseFloat returns 0 together with
ErrSyntax); valid decimals are rounded to the nearest binary32. -/
def goParseF32 (l : List Char) : F32 :=
  match parseDec l with
  | none => .fin 0
  | some q => roundF32 q

/-- Go `int(x)` conversion for the float duration `x*1000`: truncation toward
zero.  (Conversion of an infinity is implementation-defined in Go; the
arbitrary value 0 stands in for it here and no theorem depends on it.) -/
def durationMsF : F32 → ℤ
  | .fin q =>
    if 0 ≤ q then Int.fdiv (q.num * 1000) (q.den : ℤ)
    else -(Int.fdiv (-(q.num) * 1000) (q.den : ℤ))
  | .inf => 0

/-! ### The escaper -/

def sqChar : Char := Char.ofNat 39

def sqS : String := String.mk [sqChar]

/-- Characters matched by `specialCharsPattern`, regex `\n|\r|\[|\]|\||'`. -/
def metaChar (c : Char) : Bool :=
  c = Char.ofNat 10 || c = Char.ofNat 13 || c = '[' || c = ']' || c = '|' || c = sqChar

/-- The `specEscape` replacement of the source. -/
def escMeta (c : Char) : List Char :=
  if c = Char.ofNat 10 then ['|', 'n']
  else if c = Char.ofNat 13 then ['|', 'r']
  else ['|', c]

/-- First pass of `escape`: `specialCharsPattern.ReplaceAllStringFunc`. -/
def pass1 (l : List Char) : List Char :=
  l.flatMap (fun c => if metaChar c then escMeta c else [c])

def cv (c : Char) : ℕ := c.toNat

/-- Characters matched by `nonAsciiCharsPattern`, regex
`[\x00-\x20]|[\x80-\x{ffff}]` — note the inclusive 0xffff upper bound. -/
def needHex (c : Char) : Bool :=
  cv c ≤ 0x20 || (0x80 ≤ cv c && cv c ≤ 0xffff)

/-- First byte of the UTF-8 encoding of a character (`in[0]` in the source's
`unicodeEscape`). -/
def utf8b0 (c : Char) : ℕ :=
  if cv c < 0x80 then cv c
  else if cv c < 0x800 then 0xc0 + cv c / 64
  else if cv c < 0x10000 then 0xe0 + cv c / 4096
  else 0xf0 + cv c / 262144

def hexDig (n : ℕ) : Char :=
  if n < 10 then Char.ofNat (48 + n) else Char.ofNat (87 + n)

/-- Four lowercase hex digits, as produced by the `%04x` format verb. -/
def hex4 (n : ℕ) : List Char :=
  [hexDig (n / 4096 % 16), hexDig (n / 256 % 16), hexDig (n / 16 % 16), hexDig (n % 16)]

/-- Second pass of `escape`: `nonAsciiCharsPattern.ReplaceAllStringFunc` with
`unicodeEscape`, i.e. `|0x%04x` of the first UTF-8 byte. -/
def pass2 (l : List Char) : List Char :=
  l.flatMap (fun c => if needHex c then '|' :: '0' :: 'x' :: hex4 (utf8b0 c) else [c])

/-- The source's `escape`: metacharacter pass, then control/non-ASCII pass
applied to the result of the first pass. -/
def escape (s : String) : String := String.mk (pass2 (pass1 s.data))

/-! ### Records, message formatting, flushing -/

/-- The `testResult` struct.  Zero values of the Go struct: empty status,
nil output slice, duration 0. -/
structure testResult where
  name : String
  status : String
  output : List String
  durationSec : F32
deriving DecidableEq

/-- The `strings.Join(test.output, "\n")` of `flush`. -/
def joinNL : List String → String
  | [] => ""
  | [s] => s
  | s :: rest => s ++ "\n" ++ joinNL rest

/-- One backtracking attempt of `Error:\s+(.+)$` at a fixed start position:
`cs` is the text right after the literal `Error:`, and the counter is the
attempted length of the greedy `\s+` group (tried longest-first).  `(.+)` is
a maximal nonempty run of non-newline characters, after which `$` (multiline)
holds automatically. -/
def tryWsLen (cs : List Char) : ℕ → Option (List Char)
  | 0 => none
  | n + 1 =>
    let run := (cs.drop (n + 1)).takeWhile (fun c => c ≠ Char.ofNat 10)
    if run.isEmpty then tryWsLen cs n
    else some ("Error:".data ++ cs.take (n + 1) ++ run)

/-- Match of `(?m)Error:\s+(.+)$` anchored at the start of `l`. -/
def matchErrAt (l : List Char) : Option (List Char) :=
  match dropPref ("Error:".data) l with
  | none => none
  | some cs => tryWsLen cs (cs.takeWhile goWS).length

/-- Leftmost match of `(?m)Error:\s+(.+)$`, the `FindString` call of
`flush`. -/
def findErr : List Char → Option (List Char)
  | [] => none
  | c :: rest =>
    match matchErrAt (c :: rest) with
    | some m => some m
    | none => findErr rest

/-- The White_Space class of Go's `unicode.IsSpace`, used by
`strings.TrimSpace`. -/
def uniSp (c : Char) : Bool :=
  (9 ≤ cv c && cv c ≤ 13) || cv c = 32 || cv c = 0x85 || cv c = 0xa0 ||
  cv c = 0x1680 || (0x2000 ≤ cv c && cv c ≤ 0x200a) || cv c = 0x2028 ||
  cv c = 0x2029 || cv c = 0x202f || cv c = 0x205f || cv c = 0x3000

def goTrimSpace (l : List Char) : List Char :=
  ((l.dropWhile uniSp).reverse.dropWhile uniSp).reverse

/-- First line of a string: `strings.Split(s, "\n")[0]`. -/
def firstLineL (l : List Char) : List Char :=
  l.takeWhile (fun c => c ≠ Char.ofNat 10)

/-- Failure-message synthesis of `flush`: the first `Error:` match in the
joined output, or else the trimmed first line. -/
def failMessage (s : String) : String :=
  let m := (findErr s.data).getD []
  if m.isEmpty then String.mk (goTrimSpace (firstLineL s.data)) else String.mk m

def mkTestStarted (nm : String) : String :=
  "##teamcity[testStarted name=" ++ sqS ++ escape nm ++ sqS ++
    " captureStandardOutput=" ++ sqS ++ "true" ++ sqS ++ "]"

def mkTestFailed (nm msg : String) : String :=
  "##teamcity[testFailed name=" ++ sqS ++ escape nm ++ sqS ++
    " message=" ++ sqS ++ escape msg ++ sqS ++ "]"

def mkTestIgnored (nm : String) : String :=
  "##teamcity[testIgnored name=" ++ sqS ++ escape nm ++ sqS ++ "]"

def mkTestFinishedRaw (nm : String) (ms : ℤ) : String :=
  "##teamcity[testFinished name=" ++ sqS ++ escape nm ++ sqS ++
    " duration=" ++ sqS ++ toString ms ++ sqS ++ "]"

def mkSuiteStarted (nm : String) : String :=
  "##teamcity[testSuiteStarted name=" ++ sqS ++ escape nm ++ sqS ++ "]"

def mkSuiteFinished (nm : String) : String :=
  "##teamcity[testSuiteFinished name=" ++ sqS ++ escape nm ++ sqS ++ "]"

/-- The `flush` method of `testResult`: testStarted, the joined raw output if
any, the status-specific line (none for PASS or for a status never set), and
testFinished with the truncated millisecond duration. -/
def flushRecord (t : testResult) : List String :=
  let joined := joinNL t.output
  [mkTestStarted t.name]
    ++ (if t.output.isEmpty then [] else [joined])
    ++ (if t.status = "PASS" then []
        else if t.status = "FAIL" then [mkTestFailed t.name (failMessage joined)]
        else if t.status = "SKIP" then [mkTestIgnored t.name]
        else [])
    ++ [mkTestFinishedRaw t.name (durationMsF t.durationSec)]

/-- The `flushPackage` function: suite-started, each record in buffer order,
suite-finished. -/
def flushPackage (nm : String) (results : List testResult) : List String :=
  mkSuiteStarted nm :: (results.flatMap flushRecord ++ [mkSuiteFinished nm])

/-! ### The dispatcher state machine -/

/-- Dispatcher state of `main`: the per-package result buffer and the
capturing context.  The Go code keeps a pointer to the capturing record; the
buffer only grows between flushes, so the pointer is modelled by the record's
index in the buffer. -/
structure MachineState where
  buffer : List testResult
  capturing : Option ℕ
deriving DecidableEq

def initState : MachineState := ⟨[], none⟩

def panicMsg : String := "Run `go test` with -v"

/-- `findTest` combined with the in-place status/duration update of the
TestFinished branch: locate the first record with the given name, set its
status and duration, and report its index. -/
def setFinished (nm status : String) (d : F32) :
    List testResult → Option (List testResult × ℕ)
  | [] => none
  | t :: ts =>
    if t.name = nm then some ({ t with status := status, durationSec := d } :: ts, 0)
    else
      match setFinished nm status d ts with
      | none => none
      | some (ts2, i) => some (t :: ts2, i + 1)

/-- Replace the element at an index (in-place mutation through the capturing
pointer); out of range, the list is unchanged (unreachable from `initState`). -/
def modIdx (i : ℕ) (f : testResult → testResult) :
    List testResult → List testResult
  | [] => []
  | t :: ts =>
    match i with
    | 0 => f t :: ts
    | j + 1 => t :: modIdx j f ts

/-- One iteration of the scanner loop of `main`: classify the line, update
the state, return the strings printed during this iteration.  A `TestFinished`
line whose name has no record panics (modelled as `Except.error`). -/
def step (st : MachineState) (line : String) :
    Except String (MachineState × List String) :=
  match classify line.data with
  | .cruftE => .ok (st, [])
  | .runE nm =>
    .ok (⟨st.buffer ++ [⟨String.mk nm, "", [], .fin 0⟩], none⟩, [])
  | .finE status nm dur =>
    match setFinished (String.mk nm) status (goParseF32 dur) st.buffer with
    | none => .error panicMsg
    | some (b2, i) =>
      .ok (⟨b2, if status = "FAIL" then some i else st.capturing⟩, [])
  | .pkgE p => .ok (⟨[], none⟩, flushPackage (String.mk p) st.buffer)
  | .plainE =>
    match st.capturing with
    | some i =>
      .ok (⟨modIdx i (fun t => { t with output := t.output ++ [line] }) st.buffer,
            st.capturing⟩, [])
    | none => .ok (st, [line])

/-- Run the scanner loop over a list of input lines from a given state,
stopping at the first panic, concatenating everything printed. -/
def runFrom (st : MachineState) : List String → Except String (MachineState × List String)
  | [] => .ok (st, [])
  | l :: ls =>
    match step st l with
    | .error e => .error e
    | .ok (st2, out) =>
      match runFrom st2 ls with
      | .error e => .error e
      | .ok (st3, out2) => .ok (st3, out ++ out2)

/-- The whole program on a full input: `main` starting from the empty state.
Anything left in the buffer at end of input is dropped, as in the source. -/
def runMachine (lines : List String) : Except String (MachineState × List String) :=
  runFrom initState lines

end GoTC

namespace GoTC

/-- A nonempty token of non-whitespace characters, the shape of every `\S+`
capture group used by the classifier. -/
def tokOK (s : String) : Bool := !s.data.isEmpty && s.data.all notWS

/-- A nonempty string over `[\d.]`, the shape of the duration capture. -/
def durTokOK (s : String) : Bool := !s.data.isEmpty && s.data.all isDurChar

def statusOK (s : String) : Prop := s = "PASS" ∨ s = "FAIL" ∨ s = "SKIP"

instance (s : String) : Decidable (statusOK s) :=
  inferInstanceAs (Decidable (s = "PASS" ∨ s = "FAIL" ∨ s = "SKIP"))

def runLine (nm : String) : String := "=== RUN " ++ nm

structure RecSpec where
  name : String
  status : String
  dur : String
deriving DecidableEq

def finLine (r : RecSpec) : String :=
  "--- " ++ r.status ++ ": " ++ r.name ++ " (" ++ r.dur ++ "s)"

def pkgLine (p : String) : String := "ok " ++ p

theorem takeWhile_all {p : Char → Bool} (l : List Char) (h : ∀ c ∈ l, p c = true) :
    l.takeWhile p = l :=
  List.takeWhile_eq_self_iff.mpr h

theorem takeWhile_stop {p : Char → Bool} (xs : List Char) (y : Char) (ys : List Char)
    (hall : ∀ c ∈ xs, p c = true) (hy : p y = false) :
    ((xs ++ y :: ys).takeWhile p) = xs := by
  induction xs with
  | nil => simpa [List.takeWhile_cons] using hy
  | cons c cs ih =>
    have hc : p c = true := hall c (by simp)
    simp only [List.cons_append, List.takeWhile_cons, hc, if_true]
    rw [ih (fun d hd => hall d (by simp [hd]))]

theorem data_ne_of_head {a b : Char} (h : (a = b) = False) (t1 t2 : List Char) :
    (a :: t1) = (b :: t2) → False := by
  intro he
  injection he with h1 _
  rw [h1] at h
  simp at h

theorem notCruft {c : Char} (rest : List Char) (h1 : (c = 'P') = False)
    (h2 : (c = 'F') = False) :
    ¬((c :: rest) = "PASS".data ∨ (c :: rest) = "FAIL".data) := by
  rintro (h | h)
  · exact data_ne_of_head h1 _ _ h
  · exact data_ne_of_head h2 _ _ h

theorem tokOK_ne (s : String) (h : tokOK s = true) : s.data ≠ [] := by
  simp [tokOK] at h
  intro hx
  rw [hx] at h
  simp at h

theorem tokOK_all (s : String) (h : tokOK s = true) : ∀ c ∈ s.data, notWS c = true := by
  simp only [tokOK, Bool.and_eq_true, List.all_eq_true] at h
  exact h.2

theorem tokOK_cons (s : String) (h : tokOK s = true) :
    ∃ c cs, s.data = c :: cs ∧ goWS c = false ∧ (∀ d ∈ cs, notWS d = true) := by
  have h1 := tokOK_ne s h
  have h2 := tokOK_all s h
  cases hnm : s.data with
  | nil => exact absurd hnm h1
  | cons a as =>
    refine ⟨a, as, rfl, ?_, ?_⟩
    · have := h2 a (by rw [hnm]; simp)
      simpa [notWS] using this
    · exact fun d hd => h2 d (by rw [hnm]; simp [hd])

theorem durTokOK_ne (s : String) (h : durTokOK s = true) : s.data ≠ [] := by
  simp [durTokOK] at h
  intro hx
  rw [hx] at h
  simp at h

theorem durTokOK_all (s : String) (h : durTokOK s = true) :
    ∀ c ∈ s.data, isDurChar c = true := by
  simp only [durTokOK, Bool.and_eq_true, List.all_eq_true] at h
  exact h.2

theorem parseRun_runLine (nm : String) (h : tokOK nm = true) :
    parseRun (runLine nm).data = some nm.data := by
  obtain ⟨c, cs, hcc, hws, _⟩ := tokOK_cons nm h
  rw [runLine, String.data_append]
  rw [show "=== RUN ".data = '=' :: '=' :: '=' :: ' ' :: 'R' :: 'U' :: 'N' :: ' ' :: [] from rfl]
  simp only [List.cons_append, List.nil_append]
  simp only [parseRun, dropPref, if_true]
  rw [hcc]
  rw [show List.takeWhile goWS (' ' :: c :: cs) = [' '] from by
    simp [List.takeWhile_cons, hws, show goWS ' ' = true from rfl]]
  simp only [List.isEmpty_cons, List.length_cons, List.length_nil]
  simp only [List.drop_one, List.tail_cons, List.drop]
  rw [takeWhile_all (c :: cs) (by rw [← hcc]; exact tokOK_all nm h)]
  simp [← hcc, tokOK_ne nm h]

theorem classify_runLine (nm : String) (h : tokOK nm = true) :
    classify (runLine nm).data = .runE nm.data := by
  have hp := parseRun_runLine nm h
  rw [runLine, String.data_append] at hp ⊢
  rw [show "=== RUN ".data = '=' :: '=' :: '=' :: ' ' :: 'R' :: 'U' :: 'N' :: ' ' :: [] from rfl] at hp ⊢
  simp only [List.cons_append, List.nil_append] at hp ⊢
  rw [classify, if_neg (notCruft _ (by decide) (by decide))]
  rw [hp]

end GoTC

namespace GoTC

theorem dataDash : "--- ".data = '-' :: '-' :: '-' :: ' ' :: [] := rfl
theorem dataPASScol : "PASS:".data = 'P' :: 'A' :: 'S' :: 'S' :: ':' :: [] := rfl
theorem dataFAILcol : "FAIL:".data = 'F' :: 'A' :: 'I' :: 'L' :: ':' :: [] := rfl
theorem dataSKIPcol : "SKIP:".data = 'S' :: 'K' :: 'I' :: 'P' :: ':' :: [] := rfl
theorem dataPASSl : "PASS".data = 'P' :: 'A' :: 'S' :: 'S' :: [] := rfl
theorem dataFAILl : "FAIL".data = 'F' :: 'A' :: 'I' :: 'L' :: [] := rfl
theorem dataSKIPl : "SKIP".data = 'S' :: 'K' :: 'I' :: 'P' :: [] := rfl
theorem dataColonSp : ": ".data = ':' :: ' ' :: [] := rfl
theorem dataSpParen : " (".data = ' ' :: '(' :: [] := rfl
theorem dataSParen : "s)".data = 's' :: ')' :: [] := rfl

theorem parseFin_finLine (r : RecSpec) (hn : tokOK r.name = true)
    (hs : statusOK r.status) (hd : durTokOK r.dur = true) :
    parseFin (finLine r).data = some (r.status, r.name.data, r.dur.data) := by
  obtain ⟨c, cs, hcc, hws, _⟩ := tokOK_cons r.name hn
  obtain ⟨d, ds, hdd, hdpr, _⟩ : ∃ d ds, r.dur.data = d :: ds ∧ isDurChar d = true ∧ True := by
    cases hx : r.dur.data with
    | nil => exact absurd hx (durTokOK_ne r.dur hd)
    | cons a as => exact ⟨a, as, rfl, durTokOK_all r.dur hd a (by rw [hx]; simp), trivial⟩
  have hnall : ∀ x ∈ r.name.data, notWS x = true := tokOK_all r.name hn
  have hdall : ∀ x ∈ r.dur.data, isDurChar x = true := durTokOK_all r.dur hd
  rcases hs with h | h | h <;> rw [finLine, h] <;>
    simp only [String.data_append, dataDash, dataPASSl, dataFAILl, dataSKIPl,
      dataColonSp, dataSpParen, dataSParen, List.append_assoc, List.cons_append,
      List.nil_append] <;>
    simp only [parseFin, matchStatus, dropPref, dataPASScol, dataFAILcol, dataSKIPcol,
      if_true, show ('F' = 'P') = False from by decide,
      show ('S' = 'P') = False from by decide, show ('S' = 'F') = False from by decide,
      ite_false, ite_true] <;>
    rw [hcc] <;>
    simp only [List.cons_append] <;>
    rw [show ∀ Y, List.takeWhile goWS (' ' :: c :: Y) = [' '] from fun Y => by
      simp [List.takeWhile_cons, hws, show goWS ' ' = true from rfl]] <;>
    simp only [List.isEmpty_cons, List.length_cons, List.length_nil, List.drop_one,
      List.tail_cons, List.drop, Bool.false_eq_true, if_false] <;>
    rw [show ∀ Y, (c :: (cs ++ ' ' :: Y)) = ((c :: cs) ++ ' ' :: Y) from fun Y => rfl] <;>
    rw [takeWhile_stop (c :: cs) ' ' _ (by rw [← hcc]; exact hnall) (by decide)] <;>
    simp only [List.isEmpty_cons, Bool.false_eq_true, if_false, List.drop_left] <;>
    simp only [dropPref, if_true] <;>
    rw [show (r.dur.data ++ 's' :: ')' :: []) = (r.dur.data ++ 's' :: ')' :: []) from rfl] <;>
    rw [takeWhile_stop r.dur.data 's' _ hdall (by decide)] <;>
    rw [hdd] <;>
    simp only [List.isEmpty_cons, Bool.false_eq_true, if_false, List.drop_left,
      dropPref, if_true]

end GoTC

namespace GoTC

theorem classify_finLine (r : RecSpec) (hn : tokOK r.name = true)
    (hs : statusOK r.status) (hd : durTokOK r.dur = true) :
    classify (finLine r).data = .finE r.status r.name.data r.dur.data := by
  have hp := parseFin_finLine r hn hs hd
  obtain ⟨c2, cs2, hc2⟩ : ∃ c2 cs2, (finLine r).data = '-' :: c2 :: cs2 := by
    rcases hs with h | h | h <;> rw [finLine, h] <;>
      simp only [String.data_append, dataDash, List.append_assoc, List.cons_append,
        List.nil_append] <;> exact ⟨_, _, rfl⟩
  rw [hc2] at hp ⊢
  rw [classify, if_neg (notCruft _ (by decide) (by decide))]
  rw [show parseRun ('-' :: c2 :: cs2) = none from rfl, hp]

theorem parsePkg_pkgLine (p : String) (h : tokOK p = true) :
    parsePkg (pkgLine p).data = some p.data := by
  obtain ⟨c, cs, hcc, hws, _⟩ := tokOK_cons p h
  rw [pkgLine, String.data_append]
  rw [show "ok ".data = 'o' :: 'k' :: ' ' :: [] from rfl]
  simp only [List.cons_append, List.nil_append]
  simp only [parsePkg, pkgTail, dropPref, if_true]
  rw [hcc]
  rw [show List.takeWhile goWS (' ' :: c :: cs) = [' '] from by
    simp [List.takeWhile_cons, hws, show goWS ' ' = true from rfl]]
  simp only [List.isEmpty_cons, List.length_cons, List.length_nil]
  simp only [List.drop_one, List.tail_cons, List.drop]
  rw [takeWhile_all (c :: cs) (by rw [← hcc]; exact tokOK_all p h)]
  simp [← hcc, tokOK_ne p h]

theorem classify_pkgLine (p : String) (h : tokOK p = true) :
    classify (pkgLine p).data = .pkgE p.data := by
  have hp := parsePkg_pkgLine p h
  rw [pkgLine, String.data_append] at hp ⊢
  rw [show "ok ".data = 'o' :: 'k' :: ' ' :: [] from rfl] at hp ⊢
  simp only [List.cons_append, List.nil_append] at hp ⊢
  rw [classify, if_neg (notCruft _ (by decide) (by decide))]
  rw [show parseRun ('o' :: 'k' :: ' ' :: p.data) = none from rfl]
  rw [show parseFin ('o' :: 'k' :: ' ' :: p.data) = none from rfl]
  rw [hp]

end GoTC

namespace GoTC

theorem strMk_data (s : String) : String.mk s.data = s := rfl

theorem step_runLine (st : MachineState) (nm : String) (h : tokOK nm = true) :
    step st (runLine nm) = .ok (⟨st.buffer ++ [⟨nm, "", [], .fin 0⟩], none⟩, []) := by
  simp only [step, classify_runLine nm h, strMk_data]

theorem step_finLine (st : MachineState) (r : RecSpec) (hn : tokOK r.name = true)
    (hs : statusOK r.status) (hd : durTokOK r.dur = true) :
    step st (finLine r) =
      match setFinished r.name r.status (goParseF32 r.dur.data) st.buffer with
      | none => .error panicMsg
      | some (b2, i) =>
        .ok (⟨b2, if r.status = "FAIL" then some i else st.capturing⟩, []) := by
  simp only [step, classify_finLine r hn hs hd, strMk_data]

theorem step_pkgLine (st : MachineState) (p : String) (h : tokOK p = true) :
    step st (pkgLine p) = .ok (⟨[], none⟩, flushPackage p st.buffer) := by
  simp only [step, classify_pkgLine p h, strMk_data]

theorem step_plain (st : MachineState) (line : String)
    (h : classify line.data = .plainE) :
    step st line =
      match st.capturing with
      | some i =>
        .ok (⟨modIdx i (fun t => { t with output := t.output ++ [line] }) st.buffer,
              st.capturing⟩, [])
      | none => .ok (st, [line]) := by
  simp only [step, h]

end GoTC

namespace GoTC

def pendRec (r : RecSpec) : testResult := ⟨r.name, "", [], .fin 0⟩

def doneRec (r : RecSpec) : testResult := ⟨r.name, r.status, [], goParseF32 r.dur.data⟩

def hasName : List String → String → Bool
  | [], _ => false
  | d :: ds, n => if d = n then true else hasName ds n

def midBuf (done : List String) (recs : List RecSpec) : List testResult :=
  recs.map (fun r => if hasName done r.name then doneRec r else pendRec r)

theorem hasName_true_iff (d : List String) (n : String) : hasName d n = true ↔ n ∈ d := by
  induction d with
  | nil => simp [hasName]
  | cons x xs ih =>
    by_cases hx : x = n
    · simp [hasName, hx]
    · simp only [hasName, if_neg hx, ih, List.mem_cons]
      constructor
      · exact fun h => Or.inr h
      · rintro (h | h)
        · exact absurd h.symm hx
        · exact h

theorem midBuf_congr (recs : List RecSpec) (d1 d2 : List String)
    (h : ∀ r ∈ recs, hasName d1 r.name = hasName d2 r.name) :
    midBuf d1 recs = midBuf d2 recs := by
  induction recs with
  | nil => rfl
  | cons a t ih =>
    simp only [midBuf, List.map_cons]
    rw [h a (by simp)]
    have := ih (fun r hr => h r (by simp [hr]))
    simp only [midBuf] at this
    rw [this]

theorem midBuf_nil (recs : List RecSpec) : midBuf [] recs = recs.map pendRec := by
  simp [midBuf, hasName]

theorem midBuf_all (recs : List RecSpec) (done : List String)
    (h : ∀ r ∈ recs, hasName done r.name = true) :
    midBuf done recs = recs.map doneRec := by
  induction recs with
  | nil => rfl
  | cons a t ih =>
    simp only [midBuf, List.map_cons, h a (by simp), if_true]
    have := ih (fun r hr => h r (by simp [hr]))
    simp only [midBuf] at this
    rw [this]

theorem setFinished_midBuf (recs : List RecSpec) (hnd : (recs.map RecSpec.name).Nodup)
    (r : RecSpec) (hr : r ∈ recs) (done : List String)
    (hnew : hasName done r.name = false) :
    ∃ i, setFinished r.name r.status (goParseF32 r.dur.data) (midBuf done recs) =
      some (midBuf (r.name :: done) recs, i) := by
  induction recs with
  | nil => exact absurd hr (by simp)
  | cons a t ih =>
    simp only [List.map_cons, List.nodup_cons] at hnd
    by_cases heq : a.name = r.name
    · have hra : r = a := by
        rcases List.mem_cons.mp hr with h | h
        · exact h
        · exact absurd (heq ▸ (List.mem_map.mpr ⟨r, h, rfl⟩)) hnd.1
      subst hra
      refine ⟨0, ?_⟩
      have hentry : (if hasName done r.name = true then doneRec r else pendRec r) = pendRec r := by
        rw [hnew]
        simp
      have hhead : (if hasName (r.name :: done) r.name = true then doneRec r else pendRec r) = doneRec r := by
        simp [hasName]
      have htail : midBuf (r.name :: done) t = midBuf done t := by
        apply midBuf_congr
        intro b hb
        have hne : r.name ≠ b.name := by
          intro hx
          exact hnd.1 (hx ▸ List.mem_map.mpr ⟨b, hb, rfl⟩)
        simp [hasName, hne]
      simp only [midBuf, List.map_cons, hentry, hhead]
      simp only [midBuf, pendRec, doneRec] at htail
      simp only [setFinished, pendRec, doneRec, if_true]
      rw [htail]
    · have hrt : r ∈ t := by
        rcases List.mem_cons.mp hr with h | h
        · cases h
          exact absurd rfl heq
        · exact h
      obtain ⟨i, hi⟩ := ih hnd.2 hrt
      refine ⟨i + 1, ?_⟩
      have hname : (if hasName done a.name = true then doneRec a else pendRec a).name = a.name := by
        by_cases hb : hasName done a.name = true <;> simp [hb, doneRec, pendRec]
      have hne2 : r.name ≠ a.name := fun hx => heq (Eq.symm hx)
      have hh : (if hasName (r.name :: done) a.name = true then doneRec a else pendRec a)
          = (if hasName done a.name = true then doneRec a else pendRec a) := by
        have hx : hasName (r.name :: done) a.name = hasName done a.name := by
          simp [hasName, hne2]
        rw [hx]
      simp only [midBuf, List.map_cons] at hi ⊢
      simp only [setFinished]
      rw [if_neg (by rw [hname]; exact heq), hi, hh]

end GoTC

namespace GoTC

theorem runFrom_append (xs ys : List String) : ∀ st : MachineState,
    runFrom st (xs ++ ys) =
      match runFrom st xs with
      | .error e => .error e
      | .ok (st2, out) =>
        match runFrom st2 ys with
        | .error e => .error e
        | .ok (st3, out2) => .ok (st3, out ++ out2) := by
  induction xs with
  | nil =>
    intro st
    simp only [List.nil_append, runFrom]
    cases runFrom st ys with
    | error e => rfl
    | ok p => cases p with | mk st3 out2 => simp
  | cons x xs ih =>
    intro st
    simp only [List.cons_append, runFrom]
    cases hs : step st x with
    | error e => rfl
    | ok p =>
      obtain ⟨st2, out⟩ := p
      dsimp only
      simp only [List.append_eq]
      rw [ih st2]
      cases h2 : runFrom st2 xs with
      | error e => rfl
      | ok q =>
        obtain ⟨st3, out2⟩ := q
        dsimp only
        cases h3 : runFrom st3 ys with
        | error e => rfl
        | ok w =>
          obtain ⟨st4, out3⟩ := w
          simp [List.append_assoc]

theorem runStarts (rs : List RecSpec) (h : ∀ r ∈ rs, tokOK r.name = true) :
    ∀ B : List testResult,
      runFrom ⟨B, none⟩ (rs.map (fun r => runLine r.name)) =
        .ok (⟨B ++ rs.map pendRec, none⟩, []) := by
  induction rs with
  | nil => intro B; simp [runFrom]
  | cons r t ih =>
    intro B
    simp only [List.map_cons, runFrom]
    rw [step_runLine ⟨B, none⟩ r.name (h r (by simp))]
    dsimp only
    rw [show (⟨r.name, "", [], F32.fin 0⟩ : testResult) = pendRec r from rfl]
    rw [ih (fun x hx => h x (by simp [hx])) (B ++ [pendRec r])]
    simp [List.append_assoc]

theorem runFins (recs : List RecSpec) (hnd : (recs.map RecSpec.name).Nodup)
    (htok : ∀ r ∈ recs, tokOK r.name = true)
    (hst : ∀ r ∈ recs, statusOK r.status)
    (hdur : ∀ r ∈ recs, durTokOK r.dur = true) :
    ∀ (fins : List RecSpec) (done : List String) (c : Option ℕ),
      (∀ r ∈ fins, r ∈ recs) → ((fins.map RecSpec.name).Nodup) →
      (∀ r ∈ fins, hasName done r.name = false) →
      ∃ c2, runFrom ⟨midBuf done recs, c⟩ (fins.map finLine) =
        .ok (⟨midBuf ((fins.map RecSpec.name).reverse ++ done) recs, c2⟩, []) := by
  intro fins
  induction fins with
  | nil =>
    intro done c _ _ _
    exact ⟨c, by simp [runFrom]⟩
  | cons f rest ih =>
    intro done c hsub hfnd hnew
    have hf : f ∈ recs := hsub f (by simp)
    obtain ⟨i, hi⟩ := setFinished_midBuf recs hnd f hf done (hnew f (by simp))
    have hstep := step_finLine ⟨midBuf done recs, c⟩ f (htok f hf) (hst f hf) (hdur f hf)
    simp only [hi] at hstep
    simp only [List.map_cons, List.nodup_cons] at hfnd
    obtain ⟨c2, hrun⟩ := ih (f.name :: done) (if f.status = "FAIL" then some i else c)
      (fun x hx => hsub x (by simp [hx])) hfnd.2
      (fun x hx => by
        have hne : f.name ≠ x.name := by
          intro he
          exact hfnd.1 (he ▸ List.mem_map.mpr ⟨x, hx, rfl⟩)
        simp [hasName, hne]
        exact hnew x (by simp [hx]))
    refine ⟨c2, ?_⟩
    simp only [List.map_cons, runFrom, hstep, hrun]
    simp [List.reverse_cons, List.append_assoc]

end GoTC

namespace GoTC

theorem flatMap_map {α β γ : Type} (f : α → β) (g : β → List γ) (l : List α) :
    (l.map f).flatMap g = l.flatMap (fun x => g (f x)) := by
  induction l with
  | nil => rfl
  | cons a t ih => simp only [List.map_cons, List.flatMap_cons, ih]

theorem flatMap_congr {α γ : Type} {f g : α → List γ} (l : List α)
    (h : ∀ x ∈ l, f x = g x) : l.flatMap f = l.flatMap g := by
  induction l with
  | nil => rfl
  | cons a t ih =>
    simp only [List.flatMap_cons, h a (by simp)]
    rw [ih (fun x hx => h x (by simp [hx]))]

theorem pipelineMain (recs fins : List RecSpec) (pkg : String)
    (hperm : fins.Perm recs) (hnd : (recs.map RecSpec.name).Nodup)
    (htok : ∀ r ∈ recs, tokOK r.name = true)
    (hst : ∀ r ∈ recs, statusOK r.status)
    (hdur : ∀ r ∈ recs, durTokOK r.dur = true)
    (hpkg : tokOK pkg = true) :
    runMachine (recs.map (fun r => runLine r.name) ++ fins.map finLine ++ [pkgLine pkg]) =
      .ok (⟨[], none⟩, flushPackage pkg (recs.map doneRec)) := by
  have hfnd : (fins.map RecSpec.name).Nodup := by
    have hp2 : List.Perm (fins.map RecSpec.name) (recs.map RecSpec.name) :=
      hperm.map RecSpec.name
    exact hp2.nodup_iff.mpr hnd
  have hsub : ∀ r ∈ fins, r ∈ recs := fun r hr => hperm.mem_iff.mp hr
  obtain ⟨c2, hfin⟩ := runFins recs hnd htok hst hdur fins [] none hsub hfnd
    (fun r _ => by simp [hasName])
  rw [midBuf_nil] at hfin
  have hflushed : midBuf ((fins.map RecSpec.name).reverse ++ []) recs = recs.map doneRec := by
    apply midBuf_all
    intro r hr
    rw [hasName_true_iff]
    simp only [List.append_nil, List.mem_reverse]
    exact List.mem_map.mpr ⟨r, hperm.mem_iff.mpr hr, rfl⟩
  rw [hflushed] at hfin
  rw [runMachine, runFrom_append, runFrom_append]
  rw [show (initState : MachineState) = ⟨[], none⟩ from rfl]
  rw [show runFrom ⟨[], none⟩ (recs.map (fun r => runLine r.name)) =
        .ok (⟨[] ++ recs.map pendRec, none⟩, []) from runStarts recs htok []]
  simp only [List.nil_append]
  rw [hfin]
  dsimp only
  rw [show runFrom ⟨recs.map doneRec, c2⟩ [pkgLine pkg] =
        match step ⟨recs.map doneRec, c2⟩ (pkgLine pkg) with
        | .error e => .error e
        | .ok (st2, out) =>
          match runFrom st2 [] with
          | .error e => .error e
          | .ok (st3, out2) => .ok (st3, out ++ out2) from rfl]
  rw [step_pkgLine ⟨recs.map doneRec, c2⟩ pkg hpkg]
  simp [runFrom]

end GoTC

namespace GoTC

/-- The decimal shape `D.DDs` of the claims: one or more integer digits, a
dot, exactly two fractional digits. -/
def ddForm (s : String) : Prop :=
  ∃ ds a b, s.data = ds ++ '.' :: a :: b :: [] ∧ ds ≠ [] ∧
    (∀ c ∈ ds, isDigitCh c = true) ∧ isDigitCh a = true ∧ isDigitCh b = true

/-- Mathematical value of a `D.DD` literal: its digits read as an integer,
divided by 100. -/
def ddVal (s : String) : ℚ := (digitsVal (s.data.filter isDigitCh) : ℚ) / 100

theorem ddForm_durTokOK (s : String) (h : ddForm s) : durTokOK s = true := by
  obtain ⟨ds, a, b, hdata, hne, hds, ha, hb⟩ := h
  simp only [durTokOK, hdata, Bool.and_eq_true, List.all_append, List.all_cons]
  refine ⟨?_, List.all_eq_true.mpr (fun c hc => by simp [isDurChar, hds c hc]), ?_⟩
  · simp [List.isEmpty_eq_true]
  · simp [isDurChar, ha, hb]

theorem ddForm_parseDec (s : String) (h : ddForm s) :
    parseDec s.data = some (ddVal s) := by
  obtain ⟨ds, a, b, hdata, hne, hds, ha, hb⟩ := h
  have hdot : isDigitCh '.' = false := by decide
  have hstop : (ds ++ '.' :: a :: b :: []).takeWhile isDigitCh = ds :=
    takeWhile_stop ds '.' (a :: b :: []) hds hdot
  have hfil : (ds ++ '.' :: a :: b :: []).filter isDigitCh = ds ++ a :: b :: [] := by
    rw [List.filter_append]
    rw [List.filter_eq_self.mpr hds]
    simp [List.filter_cons, ha, hb, hdot]
  rw [hdata]
  simp only [parseDec, hstop, List.drop_left]
  rw [if_pos (by simp [List.all_cons, ha, hb])]
  rw [ddVal, hdata, hfil]
  rw [show npow10 (a :: b :: []).length = 100 from rfl]
  rw [Rat.mkRat_eq_divInt, Rat.divInt_eq_div]
  norm_num

/-- The status-specific part of a flushed test block, plus the truncated
binary32 duration, as the amended claim states it. -/
def expBlock (r : RecSpec) : List String :=
  [mkTestStarted r.name]
    ++ (if r.status = "FAIL" then [mkTestFailed r.name ""]
        else if r.status = "SKIP" then [mkTestIgnored r.name]
        else [])
    ++ [mkTestFinishedRaw r.name (durationMsF (roundF32 (ddVal r.dur)))]

theorem findErr_nil : findErr [] = none := rfl

theorem tryWsLen_ne_nil (cs : List Char) :
    ∀ n m, tryWsLen cs n = some m → m ≠ [] := by
  intro n
  induction n with
  | zero => intro m hm; exact absurd hm (by simp [tryWsLen])
  | succ k ih =>
    intro m hm
    simp only [tryWsLen] at hm
    by_cases hr : ((cs.drop (k + 1)).takeWhile (fun c => c ≠ Char.ofNat 10)).isEmpty = true
    · rw [if_pos hr] at hm
      exact ih m hm
    · rw [if_neg hr] at hm
      cases hm
      simp

theorem findErr_ne_nil (l : List Char) :
    ∀ m, findErr l = some m → m ≠ [] := by
  induction l with
  | nil => intro m hm; exact absurd hm (by simp [findErr])
  | cons c rest ih =>
    intro m hm
    simp only [findErr] at hm
    cases hma : matchErrAt (c :: rest) with
    | some w =>
      rw [hma] at hm
      cases hm
      simp only [matchErrAt] at hma
      cases hd : dropPref ("Error:".data) (c :: rest) with
      | none => rw [hd] at hma; exact absurd hma (by simp)
      | some cs =>
        rw [hd] at hma
        exact tryWsLen_ne_nil cs _ _ hma
    | none =>
      rw [hma] at hm
      exact ih m hm

/-- Failure message exactly as the claim words it: the first `Error:` match
of the joined output if one exists, else the trimmed first line of the
output, and the empty string for empty output. -/
def msgClaim (out : List String) : String :=
  if out.isEmpty then ""
  else
    match findErr (joinNL out).data with
    | some m => String.mk m
    | none => String.mk (goTrimSpace (firstLineL (joinNL out).data))

theorem failMessage_eq_msgClaim (out : List String) :
    failMessage (joinNL out) = msgClaim out := by
  cases hout : out with
  | nil => rfl
  | cons o os =>
    simp only [msgClaim, List.isEmpty_cons, Bool.false_eq_true, if_false]
    cases hf : findErr (joinNL (o :: os)).data with
    | some m =>
      have hne : m ≠ [] := findErr_ne_nil _ m hf
      simp only [failMessage, hf, Option.getD_some]
      rw [if_neg (by simpa [List.isEmpty_eq_true] using hne)]
    | none =>
      simp only [failMessage, hf, Option.getD_none]
      simp

/-- A flushed FAIL record: started line, raw output block if any, testFailed
with the synthesized message, testFinished. -/
theorem flushRecord_fail_shape (t : testResult) (h : t.status = "FAIL") :
    flushRecord t =
      [mkTestStarted t.name]
        ++ (if t.output.isEmpty then [] else [joinNL t.output])
        ++ [mkTestFailed t.name (msgClaim t.output)]
        ++ [mkTestFinishedRaw t.name (durationMsF t.durationSec)] := by
  simp only [flushRecord, h, show ("FAIL" = "PASS") = False from by simp, if_false,
    reduceIte, failMessage_eq_msgClaim]

theorem flushRecord_doneRec (r : RecSpec) (hs : statusOK r.status) :
    flushRecord (doneRec r) =
      [mkTestStarted r.name]
        ++ (if r.status = "FAIL" then [mkTestFailed r.name ""]
            else if r.status = "SKIP" then [mkTestIgnored r.name]
            else [])
        ++ [mkTestFinishedRaw r.name (durationMsF (goParseF32 r.dur.data))] := by
  have hmsg : failMessage "" = "" := rfl
  rcases hs with h | h | h <;>
    simp [flushRecord, doneRec, h, hmsg, joinNL]

/-! ### Claim-side definitions for the escaper (C5) and diagnostics (C2) -/

/-- Metacharacter replacement exactly as the claim words it: the six
metacharacters become their two-character escapes. -/
def claimPass1 : List Char → List Char
  | [] => []
  | c :: cs =>
    (if c = Char.ofNat 10 then ['|', 'n']
     else if c = Char.ofNat 13 then ['|', 'r']
     else if c = '[' || c = ']' || c = '|' || c = sqChar then ['|', c]
     else [c]) ++ claimPass1 cs

/-- Character condition of the claim as stated: code point in [0x00,0x20]
or at least 0x80 with no upper bound. -/
def claimHexU (c : Char) : Bool := cv c ≤ 0x20 || 0x80 ≤ cv c

/-- Character condition as amended: upper bound 0xffff, matching the
`[\x80-\x{ffff}]` class of the source. -/
def claimHexB (c : Char) : Bool := cv c ≤ 0x20 || (0x80 ≤ cv c && cv c ≤ 0xffff)

def claimPass2U : List Char → List Char
  | [] => []
  | c :: cs =>
    (if claimHexU c then '|' :: '0' :: 'x' :: hex4 (utf8b0 c) else [c]) ++ claimPass2U cs

def claimPass2B : List Char → List Char
  | [] => []
  | c :: cs =>
    (if claimHexB c then '|' :: '0' :: 'x' :: hex4 (utf8b0 c) else [c]) ++ claimPass2B cs

/-- The escaper as the claim literally states it (unbounded non-ASCII
range). -/
def escapeClaimU (s : String) : String := String.mk (claimPass2U (claimPass1 s.data))

/-- The escaper as amended (non-ASCII range capped at 0xffff). -/
def escapeClaimB (s : String) : String := String.mk (claimPass2B (claimPass1 s.data))

theorem pass1_eq_claimPass1 (l : List Char) : pass1 l = claimPass1 l := by
  induction l with
  | nil => rfl
  | cons c cs ih =>
    simp only [pass1, List.flatMap_cons, claimPass1]
    simp only [pass1] at ih
    rw [ih]
    by_cases h10 : c = Char.ofNat 10
    · simp [metaChar, escMeta, h10]
    · by_cases h13 : c = Char.ofNat 13
      · simp [metaChar, escMeta, h13, h10]
      · by_cases hm : c = '[' || c = ']' || c = '|' || c = sqChar
        · have hmeta : metaChar c = true := by
            simp only [metaChar, h10, h13]
            simp only [Bool.or_eq_true] at hm ⊢
            rcases hm with ((h | h) | h) | h <;> simp [h]
          simp only [hmeta, if_true, hm, escMeta, if_neg h10, if_neg h13]
        · have hmeta : metaChar c = false := by
            simp only [metaChar, h10, h13]
            simp only [Bool.or_eq_true, not_or] at hm
            simp [hm.1.1.1, hm.1.1.2, hm.1.2, hm.2]
          simp [hmeta, hm, h10, h13]

theorem pass2_eq_claimPass2B (l : List Char) : pass2 l = claimPass2B l := by
  induction l with
  | nil => rfl
  | cons c cs ih =>
    simp only [pass2, List.flatMap_cons, claimPass2B]
    simp only [pass2] at ih
    rw [ih]
    rfl

/-- Literal prefix test over character lists. -/
def isPrefCh : List Char → List Char → Bool
  | [], _ => true
  | _ :: _, [] => false
  | a :: as, b :: bs => if a = b then isPrefCh as bs else false

/-- Substring occurrence test, used to ask whether a diagnostic mentions a
test name. -/
def infixCh (nd : List Char) : List Char → Bool
  | [] => isPrefCh nd []
  | c :: rest => isPrefCh nd (c :: rest) || infixCh nd rest

def containsSub (hay nd : String) : Bool := infixCh nd.data hay.data

theorem escape_eq_claimB (s : String) : escape s = escapeClaimB s := by
  rw [escape, escapeClaimB, pass1_eq_claimPass1, pass2_eq_claimPass2B]

/-- Decidable equality for run results, so concrete machine runs can be
checked by evaluation. -/
def exceptDecEq {ε α : Type} [DecidableEq ε] [DecidableEq α] : DecidableEq (Except ε α)
  | .error e1, .error e2 =>
    if h : e1 = e2 then isTrue (by rw [h]) else isFalse (by intro hx; cases hx; exact h rfl)
  | .error _, .ok _ => isFalse (by intro hx; cases hx)
  | .ok _, .error _ => isFalse (by intro hx; cases hx)
  | .ok a1, .ok a2 =>
    if h : a1 = a2 then isTrue (by rw [h]) else isFalse (by intro hx; cases hx; exact h rfl)

instance {ε α : Type} [DecidableEq ε] [DecidableEq α] : DecidableEq (Except ε α) :=
  exceptDecEq

theorem flushRecord_pending (nm : String) :
    flushRecord ⟨nm, "", [], .fin 0⟩ = [mkTestStarted nm, mkTestFinishedRaw nm 0] := by
  simp [flushRecord, joinNL, durationMsF,
    show ("" = "PASS") = False from by simp,
    show ("" = "FAIL") = False from by simp,
    show ("" = "SKIP") = False from by simp,
    show Int.fdiv ((0 : ℚ).num * 1000) ((0 : ℚ).den : ℤ) = 0 from rfl]

theorem flushRecord_doneRec_expBlock (r : RecSpec) (hs : statusOK r.status)
    (hd : ddForm r.dur) : flushRecord (doneRec r) = expBlock r := by
  rw [flushRecord_doneRec r hs, expBlock]
  rw [show goParseF32 r.dur.data = roundF32 (ddVal r.dur) from by
    simp [goParseF32, ddForm_parseDec r.dur hd]]

/-! ### The claims -/

/-- C1, counterexample: after `--- FAIL: TA` the capturing context points at
TA (index 0); the subsequent `--- PASS: TB` does NOT clear it, so the final
unclassified line is absorbed into TA's output and nothing is emitted —
contradicting the claim that a non-Fail TestFinished clears the context. -/
theorem c1_cex :
    runMachine ["=== RUN TA", "=== RUN TB", "--- FAIL: TA (1s)", "--- PASS: TB (1s)",
        "stray output"] =
      .ok (⟨[⟨"TA", "FAIL", ["stray output"], F32.fin 1⟩, ⟨"TB", "PASS", [], F32.fin 1⟩],
            some 0⟩, []) ∧
    (some 0 : Option ℕ) ≠ none :=
  ⟨by decide, by decide⟩

/-- C1, as amended: a TestFinished event sets the capturing context to the
matched record's index when its status is Fail and otherwise leaves it
unchanged (it is not cleared by a Pass or Skip TestFinished; only
TestStarted and PackageFinished clear it). -/
theorem c1_capturing (st : MachineState) (r : RecSpec) (b2 : List testResult) (i : ℕ)
    (hn : tokOK r.name = true) (hs : statusOK r.status) (hd : durTokOK r.dur = true)
    (hset : setFinished r.name r.status (goParseF32 r.dur.data) st.buffer = some (b2, i)) :
    step st (finLine r) =
      .ok (⟨b2, if r.status = "FAIL" then some i else st.capturing⟩, []) := by
  rw [step_finLine st r hn hs hd, hset]

/-- C1 witness: a PASS finish leaves a previously set capturing context (5)
untouched. -/
theorem c1_capturing_wit :
    step ⟨[⟨"TB", "", [], F32.fin 0⟩], some 5⟩ (finLine ⟨"TB", "PASS", "1"⟩) =
      .ok (⟨[⟨"TB", "PASS", [], F32.fin 1⟩], some 5⟩, []) := by
  have h := c1_capturing ⟨[⟨"TB", "", [], F32.fin 0⟩], some 5⟩ ⟨"TB", "PASS", "1"⟩
    [⟨"TB", "PASS", [], F32.fin 1⟩] 0 (by decide) (Or.inl rfl) (by decide) (by decide)
  simpa using h

/-- C2, counterexample: a TestFinished line for an unknown name panics with
the fixed message `Run go test with -v`, which does not contain the missing
test name TX; the claim that the diagnostic identifies the missing name is
false. -/
theorem c2_cex :
    runMachine ["--- PASS: TX (1s)", "=== RUN TY"] = .error "Run `go test` with -v" ∧
    containsSub "Run `go test` with -v" "TX" = false :=
  ⟨by decide, by decide⟩

/-- C2, as amended: a TestFinished event with no matching record in the
buffer aborts the run immediately (no further input lines are processed)
with the fixed diagnostic `Run go test with -v`, which does not name the
unknown test. -/
theorem c2_fatal (st : MachineState) (r : RecSpec) (rest : List String)
    (hn : tokOK r.name = true) (hs : statusOK r.status) (hd : durTokOK r.dur = true)
    (hmiss : setFinished r.name r.status (goParseF32 r.dur.data) st.buffer = none) :
    runFrom st (finLine r :: rest) = .error panicMsg := by
  simp only [runFrom, step_finLine st r hn hs hd, hmiss]

/-- C2 witness: the fatal error fires on an empty buffer whatever follows. -/
theorem c2_fatal_wit :
    runFrom ⟨[], none⟩ [finLine ⟨"TX", "PASS", "1"⟩, "=== RUN TY"] = .error panicMsg :=
  c2_fatal ⟨[], none⟩ ⟨"TX", "PASS", "1"⟩ ["=== RUN TY"] (by decide) (Or.inl rfl)
    (by decide) (by decide)

/-- C3: a PackageFinished event flushes the whole buffer exactly once as a
single suite block (suite-started, one test block per record in buffer
order, suite-finished) and empties the buffer; and in a full run where the
finish lines arrive in ANY permutation of the start order, the blocks are
emitted in start order. -/
theorem c3_flush_order :
    (∀ (st : MachineState) (p : String), tokOK p = true →
      step st (pkgLine p) =
        .ok (⟨[], none⟩,
          mkSuiteStarted p :: (st.buffer.flatMap flushRecord ++ [mkSuiteFinished p]))) ∧
    (∀ (recs fins : List RecSpec) (pkg : String),
      fins.Perm recs → (recs.map RecSpec.name).Nodup →
      (∀ r ∈ recs, tokOK r.name = true) → (∀ r ∈ recs, statusOK r.status) →
      (∀ r ∈ recs, durTokOK r.dur = true) → tokOK pkg = true →
      runMachine (recs.map (fun r => runLine r.name) ++ fins.map finLine ++ [pkgLine pkg]) =
        .ok (⟨[], none⟩,
          mkSuiteStarted pkg ::
            ((recs.map doneRec).flatMap flushRecord ++ [mkSuiteFinished pkg]))) := by
  constructor
  · intro st p hp
    rw [step_pkgLine st p hp]
    rfl
  · intro recs fins pkg hperm hnd htok hst hdur hpkg
    rw [pipelineMain recs fins pkg hperm hnd htok hst hdur hpkg]
    rfl

/-- C3 witness: two tests whose finish lines arrive in reversed order are
still flushed in start order TA, TB. -/
theorem c3_flush_order_wit :
    runMachine ([runLine "TA", runLine "TB"]
        ++ [finLine ⟨"TB", "FAIL", "2"⟩, finLine ⟨"TA", "PASS", "1"⟩]
        ++ [pkgLine "pk"]) =
      .ok (⟨[], none⟩,
        mkSuiteStarted "pk" ::
          (([⟨"TA", "PASS", "1"⟩, ⟨"TB", "FAIL", "2"⟩].map doneRec).flatMap flushRecord
            ++ [mkSuiteFinished "pk"])) := by
  have h := c3_flush_order.2 [⟨"TA", "PASS", "1"⟩, ⟨"TB", "FAIL", "2"⟩]
    [⟨"TB", "FAIL", "2"⟩, ⟨"TA", "PASS", "1"⟩] "pk"
    (by decide) (by decide) (by decide) (by decide) (by decide) (by decide)
  exact h

/-- C4, counterexample: for duration literal `0.01s` the emitted testFinished
attribute is 9 (truncation of 1000 times the binary32 value of 0.01), while
the claim demands round(0.01*1000) = 10. -/
theorem c4_cex :
    runMachine [runLine "TA", finLine ⟨"TA", "PASS", "0.01"⟩, pkgLine "p"] =
      .ok (⟨[], none⟩, [mkSuiteStarted "p", mkTestStarted "TA",
        mkTestFinishedRaw "TA" 9, mkSuiteFinished "p"]) ∧
    ddVal "0.01" = 1/100 ∧ round ((1 : ℚ)/100 * 1000) = (10 : ℤ) := by
  refine ⟨by decide, ?_, ?_⟩
  · simp [ddVal, show digitsVal ("0.01".data.filter isDigitCh) = 1 from by decide]
  · norm_num [round_eq]

/-- C4, as amended: N starts, then the N matching finish events in any
order, then PackageFinished, emit exactly one suite block with exactly N
test blocks in start order, each with the correct status-specific line, and
a testFinished duration equal to the truncation toward zero of 1000 times
the IEEE-754 binary32 nearest-even rounding of the decimal literal D.DD
(not its exact rounding). -/
theorem c4_blocks (recs fins : List RecSpec) (pkg : String)
    (hperm : fins.Perm recs) (hnd : (recs.map RecSpec.name).Nodup)
    (htok : ∀ r ∈ recs, tokOK r.name = true) (hst : ∀ r ∈ recs, statusOK r.status)
    (hdd : ∀ r ∈ recs, ddForm r.dur) (hpkg : tokOK pkg = true) :
    runMachine (recs.map (fun r => runLine r.name) ++ fins.map finLine ++ [pkgLine pkg]) =
      .ok (⟨[], none⟩,
        mkSuiteStarted pkg :: (recs.flatMap expBlock ++ [mkSuiteFinished pkg])) := by
  have hdur : ∀ r ∈ recs, durTokOK r.dur = true := fun r hr => ddForm_durTokOK _ (hdd r hr)
  rw [pipelineMain recs fins pkg hperm hnd htok hst hdur hpkg]
  rw [flushPackage, flatMap_map]
  rw [flatMap_congr recs
    (fun r hr => flushRecord_doneRec_expBlock r (hst r hr) (hdd r hr))]

/-- C4 witness: one PASS test with duration 0.01s. -/
theorem c4_blocks_wit :
    runMachine ([⟨"TA", "PASS", "0.01"⟩] |>.map (fun (r : RecSpec) => runLine r.name)
        |>.append (([⟨"TA", "PASS", "0.01"⟩] |>.map finLine) ++ [pkgLine "p"])) =
      .ok (⟨[], none⟩,
        mkSuiteStarted "p" ::
          (([⟨"TA", "PASS", "0.01"⟩] |>.flatMap expBlock) ++ [mkSuiteFinished "p"])) := by
  have hdd : ∀ r ∈ ([⟨"TA", "PASS", "0.01"⟩] : List RecSpec), ddForm r.dur := by
    intro r hr
    simp only [List.mem_singleton] at hr
    subst hr
    exact ⟨['0'], '0', '1', rfl, by decide, by decide, by decide, by decide⟩
  have h := c4_blocks [⟨"TA", "PASS", "0.01"⟩] [⟨"TA", "PASS", "0.01"⟩] "p"
    (by decide) (by decide) (by decide) (by decide) hdd (by decide)
  simpa using h

/-- C5, counterexample: a character above U+FFFF (here U+1F600) is matched
by neither regex of the escaper and passes through unchanged, while the
claim (with its unbounded non-ASCII range) demands the `|0xHHHH` form. -/
theorem c5_cex :
    escape (String.mk [Char.ofNat 128512]) ≠ escapeClaimU (String.mk [Char.ofNat 128512]) := by
  decide

/-- C5, as amended: escaping is the six-metacharacter pass followed by the
`|0xHHHH` replacement of every remaining character with code point in
[0x00,0x20] or in [0x80,0xFFFF] (the source's upper bound), all other
characters unchanged. -/
theorem c5_escape (s : String) : escape s = escapeClaimB s := by
  rw [escape, escapeClaimB, pass1_eq_claimPass1, pass2_eq_claimPass2B]

/-- C6: the message of the testFailed line of a flushed FAIL record follows
the three claim cases packaged in `msgClaim`: the first `Error:` match of
the joined output if present, else the trimmed first line, and the empty
string for empty output. -/
theorem c6_fail_message (t : testResult) (h : t.status = "FAIL") :
    flushRecord t =
      [mkTestStarted t.name]
        ++ (if t.output.isEmpty then [] else [joinNL t.output])
        ++ [mkTestFailed t.name (msgClaim t.output)]
        ++ [mkTestFinishedRaw t.name (durationMsF t.durationSec)] :=
  flushRecord_fail_shape t h

/-- C6 witness: a FAIL record with output containing an `Error:` line. -/
theorem c6_fail_message_wit :
    flushRecord ⟨"T2", "FAIL", ["x", "Error: boom"], .fin 0⟩ =
      [mkTestStarted "T2", joinNL ["x", "Error: boom"],
       mkTestFailed "T2" (msgClaim ["x", "Error: boom"]),
       mkTestFinishedRaw "T2" 0] := by
  have h := c6_fail_message ⟨"T2", "FAIL", ["x", "Error: boom"], .fin 0⟩ rfl
  simpa [durationMsF, show Int.fdiv ((0 : ℚ).num * 1000) ((0 : ℚ).den : ℤ) = 0 from rfl]
    using h

/-- C7: an unclassified line is appended verbatim to the capturing record's
output with nothing emitted while a capturing context is active, and is
passed through unchanged with the state untouched when none is; the record
list structure and the capturing context are unchanged in both cases. -/
theorem c7_unclassified (st : MachineState) (line : String)
    (h : classify line.data = .plainE) :
    (st.capturing = none → step st line = .ok (st, [line])) ∧
    (∀ i, st.capturing = some i →
      step st line =
        .ok (⟨modIdx i (fun t => { t with output := t.output ++ [line] }) st.buffer,
              some i⟩, [])) := by
  constructor
  · intro hc
    simp only [step, h, hc]
  · intro i hc
    simp only [step, h, hc]

/-- C7 witness: a line that looks like a service message is captured
verbatim by the active capturing record. -/
theorem c7_unclassified_wit :
    step ⟨[⟨"T", "FAIL", [], F32.fin 0⟩], some 0⟩ "##teamcity[testFailed name=o]" =
      .ok (⟨[⟨"T", "FAIL", ["##teamcity[testFailed name=o]"], F32.fin 0⟩], some 0⟩, []) := by
  have h := (c7_unclassified ⟨[⟨"T", "FAIL", [], F32.fin 0⟩], some 0⟩
    "##teamcity[testFailed name=o]" (by decide)).2 0 rfl
  simpa [modIdx] using h

/-- C8: a TestFinished line whose duration literal fails to parse (a
`[\d.]+` string with no digit or more than one dot) leaves durationSeconds
at 0 and processing continues normally with no diagnostic. -/
theorem c8_bad_duration (st : MachineState) (r : RecSpec) (b2 : List testResult) (i : ℕ)
    (hn : tokOK r.name = true) (hs : statusOK r.status) (hd : durTokOK r.dur = true)
    (hbad : parseDec r.dur.data = none)
    (hset : setFinished r.name r.status (F32.fin 0) st.buffer = some (b2, i)) :
    goParseF32 r.dur.data = F32.fin 0 ∧
      step st (finLine r) =
        .ok (⟨b2, if r.status = "FAIL" then some i else st.capturing⟩, []) := by
  have hz : goParseF32 r.dur.data = F32.fin 0 := by simp [goParseF32, hbad]
  refine ⟨hz, ?_⟩
  rw [step_finLine st r hn hs hd, hz, hset]

/-- C8 witness: the duration literal `.` matches the duration grammar but
fails to parse; the test still finishes normally with duration 0. -/
theorem c8_bad_duration_wit :
    goParseF32 ".".data = F32.fin 0 ∧
      step ⟨[⟨"TD", "", [], F32.fin 0⟩], none⟩ (finLine ⟨"TD", "PASS", "."⟩) =
        .ok (⟨[⟨"TD", "PASS", [], F32.fin 0⟩], none⟩, []) := by
  have h := c8_bad_duration ⟨[⟨"TD", "", [], F32.fin 0⟩], none⟩ ⟨"TD", "PASS", "."⟩
    [⟨"TD", "PASS", [], F32.fin 0⟩] 0 (by decide) (Or.inl rfl) (by decide) (by decide)
    (by decide)
  simpa using h

/-- C9: a PackageFinished event on an empty buffer still emits a suite
block consisting of exactly the testSuiteStarted line immediately followed
by the testSuiteFinished line, with no test blocks and no error. -/
theorem c9_empty_package (p : String) (c : Option ℕ) (h : tokOK p = true) :
    step ⟨[], c⟩ (pkgLine p) = .ok (⟨[], none⟩, [mkSuiteStarted p, mkSuiteFinished p]) := by
  rw [step_pkgLine ⟨[], c⟩ p h]
  simp [flushPackage]

/-- C9 witness. -/
theorem c9_empty_package_wit :
    step ⟨[], some 3⟩ (pkgLine "pkg/x") =
      .ok (⟨[], none⟩, [mkSuiteStarted "pkg/x", mkSuiteFinished "pkg/x"]) :=
  c9_empty_package "pkg/x" (some 3) (by decide)

/-- C10: a record started but never finished (status still the zero value)
is flushed as its testStarted line plus a testFinished line with duration 0,
with no testFailed/testIgnored line, no output, and no error. -/
theorem c10_pending_flush (nm p : String) (h1 : tokOK nm = true) (h2 : tokOK p = true) :
    runMachine [runLine nm, pkgLine p] =
      .ok (⟨[], none⟩,
        [mkSuiteStarted p, mkTestStarted nm, mkTestFinishedRaw nm 0, mkSuiteFinished p]) := by
  have h1s : step ⟨[], none⟩ (runLine nm) = .ok (⟨[⟨nm, "", [], .fin 0⟩], none⟩, []) := by
    rw [step_runLine ⟨[], none⟩ nm h1]
    simp
  have h2s := step_pkgLine ⟨[⟨nm, "", [], .fin 0⟩], none⟩ p h2
  rw [runMachine]
  simp only [runFrom, initState, h1s, h2s]
  simp [flushPackage, flushRecord_pending]

/-- C10 witness. -/
theorem c10_pending_flush_wit :
    runMachine [runLine "TLost", pkgLine "pk"] =
      .ok (⟨[], none⟩,
        [mkSuiteStarted "pk", mkTestStarted "TLost", mkTestFinishedRaw "TLost" 0,
         mkSuiteFinished "pk"]) :=
  c10_pending_flush "TLost" "pk" (by decide) (by decide)

end GoTC
